import Mathlib

/-!
# HiggsVBF: event selection and cross-section normalisation

A shallow embedding of `src/utils/HiggsVBF.cc` (the Rivet analysis `HiggsVBF`).

Numbers: the C++ `double` values are idealised as exact rationals, so that the
definitions evaluate. Rounding enters where a property depends on it, the order
in which the candidate's momenta are summed: there the sum of two doubles is
the rational sum rounded to the nearest double (`roundDouble`,
`FourMomentum.addDouble`, `analyzeWith`).

The host framework (Rivet and YODA) is not part of the repository. Its numeric
helpers and unit constants are collected in `Framework` and taken as
parameters; the projections' per-event results are the fields of `Event`; its
histogram is the small model `Histo1D`.
-/

namespace HiggsVBF

/-! ## Data model -/

/-- Four-momentum `(E, px, py, pz)` of the host's `FourMomentum` type. -/
structure FourMomentum where
  E : ℚ
  px : ℚ
  py : ℚ
  pz : ℚ
deriving DecidableEq

/-- Component-wise sum, the host's `operator+` on `FourMomentum`, with exact
component sums (`FourMomentum.addDouble` rounds them). -/
def FourMomentum.add (a b : FourMomentum) : FourMomentum :=
  ⟨a.E + b.E, a.px + b.px, a.py + b.py, a.pz + b.pz⟩

instance : Add FourMomentum := ⟨FourMomentum.add⟩

/-- Dressed lepton: only `momentum()` is read by the analysis. -/
structure Particle where
  momentum : FourMomentum
deriving DecidableEq

/-- Clustered jet: only its momentum (for the pT cut and deltaR) is read. -/
structure Jet where
  momentum : FourMomentum
deriving DecidableEq

/-- What the three projections declared in `init` hold for one event:
the dressed leptons of "leptons", all clustered jets of "jets" (before any pT
cut) and the missing momentum of "MET". -/
structure Event where
  leptons : List Particle
  jets : List Jet
  met : FourMomentum
deriving DecidableEq

/-- Numeric helpers and unit constants of the host framework used by
`HiggsVBF.cc` and absent from src/: the units `GeV` and `femtobarn`, the
square root behind `FourMomentum::pT()`, and the angular distance `deltaR`
behind `idiscardIfAnyDeltaRLess`. -/
structure Framework where
  GeV : ℚ
  femtobarn : ℚ
  sqrt : ℚ → ℚ
  deltaR : FourMomentum → FourMomentum → ℚ

/-- Modelled from the spec: `FourMomentum::pT()`, the transverse-momentum
magnitude `sqrt(px^2 + py^2)`. -/
def Framework.pT (fw : Framework) (p : FourMomentum) : ℚ :=
  fw.sqrt (p.px ^ 2 + p.py ^ 2)

/-! ## Histogram (host collaborator) -/

/-- One bin `[xMin, xMax)` with its accumulated weight. -/
structure Bin where
  xMin : ℚ
  xMax : ℚ
  sumW : ℚ
deriving DecidableEq

/-- Modelled from the spec: the Distribution, an ordered set of bins
accumulating weighted fill values; a value outside every bin is counted in the
underflow or the overflow and in no bin. -/
structure Histo1D where
  bins : List Bin
  underflow : ℚ
  overflow : ℚ
deriving DecidableEq

/-- Does bin `b` contain the value `x`. -/
def Bin.contains (b : Bin) (x : ℚ) : Bool :=
  decide (b.xMin ≤ x) && decide (x < b.xMax)

/-- Add `w` to the bin when it contains `x`. -/
def Bin.fill (b : Bin) (x w : ℚ) : Bin :=
  if b.contains x then { b with sumW := b.sumW + w } else b

/-- Multiply the accumulated weight of a bin by `factor`. -/
def Bin.scale (b : Bin) (factor : ℚ) : Bin :=
  { b with sumW := b.sumW * factor }

/-- Modelled from the spec: `book(h, name, nbins, lower, upper)`, an empty
histogram of `nbins` equal-width bins covering `[lower, upper]`. -/
def book (nbins : Nat) (lower upper : ℚ) : Histo1D :=
  { bins := (List.range nbins).map fun i =>
      { xMin := lower + (upper - lower) * i / nbins
        xMax := lower + (upper - lower) * (i + 1) / nbins
        sumW := 0 }
    underflow := 0
    overflow := 0 }

/-- Modelled from the spec: `accumulate(value, weight)`, the histogram's
`fill`: add `weight` to the bin containing `x`; a value in no bin goes to the
underflow when it lies below every bin and to the overflow otherwise. -/
def Histo1D.fill (h : Histo1D) (x weight : ℚ) : Histo1D :=
  if h.bins.any (fun b => b.contains x) then
    { h with bins := h.bins.map fun b => b.fill x weight }
  else if h.bins.all (fun b => decide (x < b.xMin)) then
    { h with underflow := h.underflow + weight }
  else
    { h with overflow := h.overflow + weight }

/-- Modelled from the spec: `scale(h, factor)`, multiply every bin's
accumulated weight (and the two outflows) by `factor`. -/
def Histo1D.scale (h : Histo1D) (factor : ℚ) : Histo1D :=
  { bins := h.bins.map fun b => b.scale factor
    underflow := h.underflow * factor
    overflow := h.overflow * factor }

/-- Accumulated weights of the bins, in bin order. -/
def Histo1D.contents (h : Histo1D) : List ℚ :=
  h.bins.map Bin.sumW

/-- Integral of the histogram: the sum of all accumulated weight, outflows
included. -/
def Histo1D.integral (h : Histo1D) : ℚ :=
  h.underflow + h.contents.sum + h.overflow

/-! ## Projection queries (host collaborators) -/

/-- Modelled from the spec: `particlesByPt()`, the leptons sorted by
descending transverse momentum (leptons of equal pT keep their order). -/
def particlesByPt (fw : Framework) (ps : List Particle) : List Particle :=
  ps.insertionSort fun a b => fw.pT b.momentum ≤ fw.pT a.momentum

/-- Modelled from the spec: `jetsByPt(Cuts::pT > ptmin)`, the jets with
transverse momentum above `ptmin`, sorted by descending transverse momentum. -/
def jetsByPt (fw : Framework) (js : List Jet) (ptmin : ℚ) : List Jet :=
  (js.filter fun j => decide (ptmin < fw.pT j.momentum)).insertionSort
    fun a b => fw.pT b.momentum ≤ fw.pT a.momentum

/-- Modelled from the spec: `idiscardIfAnyDeltaRLess(jets, leptons, dR)`,
discard every jet whose deltaR to any of the leptons is less than `dR`. -/
def idiscardIfAnyDeltaRLess (fw : Framework) (jets : List Jet)
    (leptons : List Particle) (dR : ℚ) : List Jet :=
  jets.filter fun j =>
    !(leptons.any fun l => decide (fw.deltaR j.momentum l.momentum < dR))

/-! ## The analysis -/

/-- The method `HiggsVBF::analyze`, as a transformer of the histogram
`_h_HiggsPt`. The call `fill(Higgs.pT())` uses the default fill weight 1; the
host applies the event weight outside this method. -/
def analyze (fw : Framework) (_h_HiggsPt : Histo1D) (event : Event) : Histo1D :=
  -- Retrieve leptons, sorted by pT
  let leptons := particlesByPt fw event.leptons
  -- Reject events that do not contain two leptons
  if hsize : ¬ (leptons.length = 2) then
    _h_HiggsPt
  else
    have h2 : leptons.length = 2 := not_not.mp hsize
    -- Retrieve clustered jets, sorted by pT, with a minimum pT cut
    let jets := jetsByPt fw event.jets (30 * fw.GeV)
    -- Remove all jets within dR < 0.4 of a dressed lepton
    let jets := idiscardIfAnyDeltaRLess fw jets leptons 0.4
    -- Apply a njets >= 2 cut
    if jets.length < 2 then
      _h_HiggsPt
    else
      -- Get the MET 4-vector
      let met := event.met
      -- The Higgs candidate 4-vector: the sum of the MET and the two leptons
      let Higgs := met + (leptons.get ⟨0, by omega⟩).momentum
        + (leptons.get ⟨1, by omega⟩).momentum
      -- Fill histograms
      _h_HiggsPt.fill (fw.pT Higgs) 1

/-- The run scalars read by `finalize`: `crossSection()` in the host's
cross-section unit and `sumOfWeights()`. -/
structure Run where
  crossSection : ℚ
  sumOfWeights : ℚ
deriving DecidableEq

/-- The normalisation factor `norm` computed in `HiggsVBF::finalize`. -/
def norm (fw : Framework) (run : Run) : ℚ :=
  if run.sumOfWeights ≠ 0 then
    run.crossSection / fw.femtobarn / run.sumOfWeights
  else
    1

/-- The method `HiggsVBF::finalize`, as a transformer of `_h_HiggsPt`. -/
def finalize (fw : Framework) (run : Run) (_h_HiggsPt : Histo1D) : Histo1D :=
  _h_HiggsPt.scale (norm fw run)

/-! ## The candidate sum in double arithmetic -/

/-- Nearest integer to `q`, a tie going to the even neighbour. -/
def roundHalfEven (q : ℚ) : ℤ :=
  let f := ⌊q⌋
  if q - f < 1 / 2 then f
  else if 1 / 2 < q - f then f + 1
  else if f % 2 = 0 then f
  else f + 1

/-- The double nearest to `q`: 53 significant bits, round to nearest, ties to
even. The exponent is not bounded (no overflow to infinity, no subnormals). -/
def roundDouble (q : ℚ) : ℚ :=
  if q = 0 then 0
  else
    let e := Int.log 2 |q| - 52
    roundHalfEven (q / 2 ^ e) * 2 ^ e

/-- The host's `operator+` on `FourMomentum` as the doubles compute it: each
component sum is rounded to the nearest double. -/
def FourMomentum.addDouble (a b : FourMomentum) : FourMomentum :=
  ⟨roundDouble (a.E + b.E), roundDouble (a.px + b.px), roundDouble (a.py + b.py),
    roundDouble (a.pz + b.pz)⟩

/-- The method `HiggsVBF::analyze` with the host's `operator+` on
`FourMomentum` as the parameter `add`: `FourMomentum.add` gives `analyze`,
`FourMomentum.addDouble` gives the candidate as the doubles sum it, left to
right. -/
def analyzeWith (add : FourMomentum → FourMomentum → FourMomentum) (fw : Framework)
    (_h_HiggsPt : Histo1D) (event : Event) : Histo1D :=
  -- Retrieve leptons, sorted by pT
  let leptons := particlesByPt fw event.leptons
  -- Reject events that do not contain two leptons
  if hsize : ¬ (leptons.length = 2) then
    _h_HiggsPt
  else
    have h2 : leptons.length = 2 := not_not.mp hsize
    -- Retrieve clustered jets, sorted by pT, with a minimum pT cut
    let jets := jetsByPt fw event.jets (30 * fw.GeV)
    -- Remove all jets within dR < 0.4 of a dressed lepton
    let jets := idiscardIfAnyDeltaRLess fw jets leptons 0.4
    -- Apply a njets >= 2 cut
    if jets.length < 2 then
      _h_HiggsPt
    else
      -- Get the MET 4-vector
      let met := event.met
      -- The Higgs candidate 4-vector: the sum of the MET and the two leptons
      let Higgs := add (add met (leptons.get ⟨0, by omega⟩).momentum)
        (leptons.get ⟨1, by omega⟩).momentum
      -- Fill histograms
      _h_HiggsPt.fill (fw.pT Higgs) 1

/-! ## Names for the quantities the properties speak about -/

/-- The local variable `jets` of `analyze` at the `njets >= 2` cut: the jets
of `jetsByPt(Cuts::pT > 30 * GeV)` after `idiscardIfAnyDeltaRLess` against the
sorted leptons. -/
def selectedJets (fw : Framework) (event : Event) : List Jet :=
  idiscardIfAnyDeltaRLess fw (jetsByPt fw event.jets (30 * fw.GeV))
    (particlesByPt fw event.leptons) 0.4

/-- The spec's words for the jets of the multiplicity cut: keep only the input
jets with pT above 30 GeV, then discard those with deltaR below 0.4 to any of
the event's leptons (input order, no sorting). -/
def qualifyingJets (fw : Framework) (event : Event) : List Jet :=
  (event.jets.filter fun j => decide (30 * fw.GeV < fw.pT j.momentum)).filter fun j =>
    !(event.leptons.any fun l => decide (fw.deltaR j.momentum l.momentum < 0.4))

/-- The spec's words for a jet that counts: pT strictly above 30 GeV and
deltaR of at least 0.4 to each of the leptons. -/
def qualifies (fw : Framework) (leptons : List Particle) (j : Jet) : Bool :=
  decide (30 * fw.GeV < fw.pT j.momentum) &&
    leptons.all fun l => decide (0.4 ≤ fw.deltaR j.momentum l.momentum)

/-! ## Concrete data for the examples

The properties below hold for every `Framework`. The examples need one that
evaluates: `GeV = 1`, `femtobarn = 1/1000` (picobarn is the host's unit), a
square root that is exact on squares of rationals, and, standing in for the
angular distance, the distance between the two directions `p / E`. -/

/-- A framework instance for the examples. -/
def exampleFramework : Framework where
  GeV := 1
  femtobarn := 1 / 1000
  sqrt := fun q => (Nat.sqrt q.num.natAbs : ℚ) / (Nat.sqrt q.den : ℚ)
  deltaR := fun a b =>
    |a.px / a.E - b.px / b.E| + |a.py / a.E - b.py / b.E| + |a.pz / a.E - b.pz / b.E|

/-- Lepton with pT 50. -/
def lepA : Particle := ⟨⟨50, 30, 40, 0⟩⟩

/-- Lepton with pT 30. -/
def lepB : Particle := ⟨⟨30, -18, -24, 0⟩⟩

/-- A third lepton, pT 25. -/
def lepC : Particle := ⟨⟨25, 0, 25, 0⟩⟩

/-- Jet with pT 40, away from both leptons. -/
def jetA : Jet := ⟨⟨50, 40, 0, 30⟩⟩

/-- Jet with pT 35, away from both leptons. -/
def jetB : Jet := ⟨⟨37, 0, -35, 12⟩⟩

/-- Jet with pT 100 that lies within 0.4 of `lepA`. -/
def jetNear : Jet := ⟨⟨102, 60, 80, 20⟩⟩

/-- Jet with pT exactly 30. -/
def jetSoft : Jet := ⟨⟨50, 0, 30, 40⟩⟩

/-- Missing momentum with pT 20. -/
def metA : FourMomentum := ⟨20, 12, 16, 0⟩

/-- Two leptons (given in ascending pT), two jets that pass both cuts. -/
def evAccepted : Event := ⟨[lepB, lepA], [jetB, jetA], metA⟩

/-- The same event with another missing momentum. -/
def evAcceptedZeroMet : Event := ⟨[lepB, lepA], [jetB, jetA], ⟨0, 0, 0, 0⟩⟩

/-- One lepton only. -/
def evOneLepton : Event := ⟨[lepA], [jetA, jetB], metA⟩

/-- Three leptons, with two jets that would pass both cuts. -/
def evThreeLeptons : Event := ⟨[lepA, lepB, lepC], [jetA, jetB], metA⟩

/-- Two leptons and three jets, of which one overlaps a lepton and one is too
soft, so that a single jet is left. -/
def evOverlap : Event := ⟨[lepA, lepB], [jetA, jetNear, jetSoft], metA⟩

/-- The double next above 20, `20 + 2^-47`. -/
def tiePt : ℚ := 20 + 1 / 2 ^ 47

/-- Lepton of pT `tiePt` along +x. -/
def lepTieA : Particle := ⟨⟨tiePt, tiePt, 0, 0⟩⟩

/-- Lepton of the same pT along -x. -/
def lepTieB : Particle := ⟨⟨tiePt, -tiePt, 0, 0⟩⟩

/-- Missing momentum of pT 50 along +x. -/
def metTie : FourMomentum := ⟨50, 50, 0, 0⟩

/-- Two leptons of equal pT, two jets that pass both cuts. -/
def evTie : Event := ⟨[lepTieA, lepTieB], [jetA, jetB], metTie⟩

/-- The event `evTie` with its two leptons exchanged. -/
def evTieSwapped : Event := ⟨[lepTieB, lepTieA], [jetA, jetB], metTie⟩

/-- The method `HiggsVBF::init`, as far as it has state here: the histogram
booked by `book(_h_HiggsPt, "HiggsPt", 10, 0, 500)`. -/
def init : Histo1D := book 10 0 500

/-- A histogram with one bin holding weight 3. -/
def oneBinHisto : Histo1D := ⟨[⟨0, 500, 3⟩], 0, 0⟩

/-- Run scalars with cross-section 100 and summed weight 4. -/
def exampleRun : Run := ⟨100, 4⟩

/-! ## Lemmas on the host model -/

/-- Exact component sums do not depend on the order of the two leptons; the
rounded sums of `FourMomentum.addDouble` do. -/
theorem FourMomentum.add_right_comm (m a b : FourMomentum) : m + a + b = m + b + a := by
  show FourMomentum.add (FourMomentum.add m a) b = FourMomentum.add (FourMomentum.add m b) a
  simp only [FourMomentum.add, FourMomentum.mk.injEq]
  refine ⟨?_, ?_, ?_, ?_⟩ <;> ring

theorem pT_add_add (fw : Framework) (m a b : FourMomentum) :
    fw.pT (m + a + b)
      = fw.sqrt ((m.px + a.px + b.px) ^ 2 + (m.py + a.py + b.py) ^ 2) := rfl

theorem length_particlesByPt (fw : Framework) (ps : List Particle) :
    (particlesByPt fw ps).length = ps.length :=
  List.length_insertionSort _ ps

theorem perm_particlesByPt (fw : Framework) (ps : List Particle) :
    (particlesByPt fw ps).Perm ps :=
  List.perm_insertionSort _ ps

/-- Sorting two leptons keeps them or exchanges them. -/
theorem particlesByPt_pair (fw : Framework) (a b : Particle) :
    particlesByPt fw [a, b] = [a, b] ∨ particlesByPt fw [a, b] = [b, a] := by
  unfold particlesByPt
  simp only [List.insertionSort, List.orderedInsert]
  split_ifs
  · exact Or.inl rfl
  · exact Or.inr rfl

theorem any_eq_of_perm {α : Type} (p : α → Bool) {l₁ l₂ : List α} (hp : l₁.Perm l₂) :
    l₁.any p = l₂.any p := by
  rw [Bool.eq_iff_iff]
  simp only [List.any_eq_true]
  constructor
  · rintro ⟨x, hx, hpx⟩
    exact ⟨x, hp.mem_iff.mp hx, hpx⟩
  · rintro ⟨x, hx, hpx⟩
    exact ⟨x, hp.mem_iff.mpr hx, hpx⟩

theorem idiscard_perm (fw : Framework) (jets : List Jet) {l₁ l₂ : List Particle}
    (hp : l₁.Perm l₂) (dR : ℚ) :
    idiscardIfAnyDeltaRLess fw jets l₁ dR = idiscardIfAnyDeltaRLess fw jets l₂ dR := by
  unfold idiscardIfAnyDeltaRLess
  congr 1
  funext j
  rw [any_eq_of_perm _ hp]

theorem not_any_lt_eq_all_le (fw : Framework) (ls : List Particle) (j : Jet) (dR : ℚ) :
    (!(ls.any fun l => decide (fw.deltaR j.momentum l.momentum < dR)))
      = ls.all fun l => decide (dR ≤ fw.deltaR j.momentum l.momentum) := by
  induction ls with
  | nil => rfl
  | cons l ls ih =>
    simp only [List.any_cons, List.all_cons, Bool.not_or, ih]
    congr 1
    rw [Bool.eq_iff_iff]
    simp [not_lt]

/-- The jets of the cut in the code are the spec's qualifying jets, reordered. -/
theorem selectedJets_perm (fw : Framework) (e : Event) :
    (selectedJets fw e).Perm (qualifyingJets fw e) := by
  unfold selectedJets
  rw [idiscard_perm fw _ (perm_particlesByPt fw e.leptons)]
  unfold idiscardIfAnyDeltaRLess jetsByPt qualifyingJets
  exact (List.perm_insertionSort _ _).filter _

theorem length_qualifyingJets (fw : Framework) (e : Event) :
    (qualifyingJets fw e).length = e.jets.countP (qualifies fw e.leptons) := by
  unfold qualifyingJets
  rw [List.filter_filter, List.countP_eq_length_filter]
  congr 2
  funext j
  unfold qualifies
  rw [not_any_lt_eq_all_le, Bool.and_comm]

theorem length_selectedJets (fw : Framework) (e : Event) :
    (selectedJets fw e).length = e.jets.countP (qualifies fw e.leptons) := by
  rw [(selectedJets_perm fw e).length_eq, length_qualifyingJets]

theorem mem_selectedJets (fw : Framework) (e : Event) (j : Jet) :
    j ∈ selectedJets fw e ↔
      j ∈ e.jets ∧ 30 * fw.GeV < fw.pT j.momentum ∧
        ∀ l ∈ e.leptons, 0.4 ≤ fw.deltaR j.momentum l.momentum := by
  rw [(selectedJets_perm fw e).mem_iff]
  unfold qualifyingJets
  simp only [List.mem_filter, not_any_lt_eq_all_le, List.all_eq_true, decide_eq_true_eq,
    and_assoc]

theorem selectedJets_congr (fw : Framework) (e₁ e₂ : Event)
    (hl : e₁.leptons.Perm e₂.leptons) (hj : e₁.jets = e₂.jets) :
    selectedJets fw e₁ = selectedJets fw e₂ := by
  unfold selectedJets
  rw [hj]
  exact idiscard_perm fw _
    (((perm_particlesByPt fw e₁.leptons).trans hl).trans (perm_particlesByPt fw e₂.leptons).symm) _

/-! ## Lemmas on `analyze` -/

theorem analyze_of_length_ne (fw : Framework) (h : Histo1D) (e : Event)
    (hl : e.leptons.length ≠ 2) : analyze fw h e = h := by
  unfold analyze
  simp only [length_particlesByPt]
  rw [dif_pos hl]

theorem analyze_of_few_jets (fw : Framework) (h : Histo1D) (e : Event)
    (hj : (selectedJets fw e).length < 2) : analyze fw h e = h := by
  unfold analyze
  unfold selectedJets at hj
  by_cases hlen : (particlesByPt fw e.leptons).length = 2
  · rw [dif_neg (not_not_intro hlen)]
    exact if_pos hj
  · rw [dif_pos hlen]

theorem analyze_of_accept (fw : Framework) (h : Histo1D) (e : Event) (l0 l1 : Particle)
    (hl : particlesByPt fw e.leptons = [l0, l1]) (hj : 2 ≤ (selectedJets fw e).length) :
    analyze fw h e = h.fill (fw.pT (e.met + l0.momentum + l1.momentum)) 1 := by
  unfold analyze
  unfold selectedJets at hj
  have e0 : ∀ hp, (particlesByPt fw e.leptons).get ⟨0, hp⟩ = l0 := by
    intro hp
    rw [List.get_of_eq hl]
    rfl
  have e1 : ∀ hp, (particlesByPt fw e.leptons).get ⟨1, hp⟩ = l1 := by
    intro hp
    rw [List.get_of_eq hl]
    rfl
  have hlen : (particlesByPt fw e.leptons).length = 2 := by rw [hl]; rfl
  rw [dif_neg (not_not_intro hlen)]
  simp only []
  rw [if_neg (not_lt.mpr hj), e0, e1]

/-- Either both cuts pass and `analyze` is one fill with the candidate's pT,
or a cut fails and `analyze` returns the histogram as it was. -/
theorem analyze_cases (fw : Framework) (h : Histo1D) (e : Event) :
    ((e.leptons.length = 2 ∧ 2 ≤ (selectedJets fw e).length) ∧
        ∃ l0 l1, particlesByPt fw e.leptons = [l0, l1] ∧
          analyze fw h e = h.fill (fw.pT (e.met + l0.momentum + l1.momentum)) 1) ∨
      (¬ (e.leptons.length = 2 ∧ 2 ≤ (selectedJets fw e).length) ∧ analyze fw h e = h) := by
  by_cases hl : e.leptons.length = 2
  · by_cases hj : 2 ≤ (selectedJets fw e).length
    · left
      have hlen : (particlesByPt fw e.leptons).length = 2 := by
        rw [length_particlesByPt]; exact hl
      obtain ⟨l0, l1, hsorted⟩ := List.length_eq_two.mp hlen
      exact ⟨⟨hl, hj⟩, l0, l1, hsorted, analyze_of_accept fw h e l0 l1 hsorted hj⟩
    · right
      exact ⟨fun hc => hj hc.2, analyze_of_few_jets fw h e (not_le.mp hj)⟩
  · right
    exact ⟨fun hc => hl hc.1, analyze_of_length_ne fw h e hl⟩

/-! ## Lemmas on the histogram -/

theorem map_eq_self_mem {α : Type} {f : α → α} {l : List α} (h : l.map f = l) :
    ∀ a ∈ l, f a = a := by
  have hid : l.map f = l.map id := by rw [List.map_id]; exact h
  exact List.map_inj_left.mp hid

theorem fill_eq_self (h : Histo1D) (x w : ℚ) (heq : h.fill x w = h) : w = 0 := by
  unfold Histo1D.fill at heq
  split_ifs at heq with hany hall
  · obtain ⟨b, hb, hc⟩ := List.any_eq_true.mp hany
    have hbins : (h.bins.map fun b => b.fill x w) = h.bins := congrArg Histo1D.bins heq
    have hfix : b.fill x w = b := map_eq_self_mem hbins b hb
    unfold Bin.fill at hfix
    rw [if_pos hc] at hfix
    have hs : b.sumW + w = b.sumW := congrArg Bin.sumW hfix
    linarith
  · have hu : h.underflow + w = h.underflow := congrArg Histo1D.underflow heq
    linarith
  · have ho : h.overflow + w = h.overflow := congrArg Histo1D.overflow heq
    linarith

/-- A fill of weight 1 always changes the histogram. -/
theorem fill_one_ne (h : Histo1D) (x : ℚ) : h.fill x 1 ≠ h := fun heq =>
  one_ne_zero (fill_eq_self h x 1 heq)

theorem bin_scale_one (b : Bin) : b.scale 1 = b := by
  cases b
  simp [Bin.scale]

theorem scale_one (h : Histo1D) : h.scale 1 = h := by
  cases h with
  | mk bins u o =>
    simp only [Histo1D.scale, mul_one, Histo1D.mk.injEq, and_true]
    have hfun : (fun b : Bin => b.scale 1) = id := funext bin_scale_one
    rw [hfun, List.map_id]

theorem contents_scale (h : Histo1D) (f : ℚ) :
    (h.scale f).contents = h.contents.map fun c => c * f := by
  simp [Histo1D.contents, Histo1D.scale, Bin.scale, List.map_map, Function.comp_def]

theorem integral_scale (h : Histo1D) (f : ℚ) :
    (h.scale f).integral = h.integral * f := by
  unfold Histo1D.integral
  rw [contents_scale]
  have hsum : (h.contents.map fun c => c * f).sum = h.contents.sum * f := by
    induction h.contents with
    | nil => simp
    | cons c cs ih => simp only [List.map_cons, List.sum_cons, ih]; ring
  rw [hsum]
  simp only [Histo1D.scale]
  ring

theorem scale_scale (h : Histo1D) (f g : ℚ) : (h.scale f).scale g = h.scale (f * g) := by
  simp [Histo1D.scale, Bin.scale, List.map_map, Function.comp_def, mul_assoc]

theorem norm_of_ne (fw : Framework) (run : Run) (hsw : run.sumOfWeights ≠ 0) :
    norm fw run = run.crossSection / fw.femtobarn / run.sumOfWeights := by
  unfold norm
  rw [if_pos hsw]

theorem norm_of_eq (fw : Framework) (run : Run) (hsw : run.sumOfWeights = 0) :
    norm fw run = 1 := by
  unfold norm
  rw [if_neg (not_not_intro hsw)]

/-- Two fills differ when some bin holds the one value and not the other. -/
theorem fill_ne_fill (h : Histo1D) (x y w : ℚ) (b : Bin) (hb : b ∈ h.bins)
    (hx : b.contains x = true) (hy : b.contains y = false) (hw : w ≠ 0) :
    h.fill x w ≠ h.fill y w := by
  intro heq
  have hany : (h.bins.any fun b => b.contains x) = true := List.any_eq_true.mpr ⟨b, hb, hx⟩
  have hbx : b.fill x w = { b with sumW := b.sumW + w } := by
    unfold Bin.fill
    rw [if_pos hx]
  have hby : b.fill y w = b := by
    unfold Bin.fill
    rw [hy]
    rfl
  have hfix : b.fill x w = b := by
    unfold Histo1D.fill at heq
    rw [if_pos hany] at heq
    split_ifs at heq with hanyy hall
    · have hbins : (h.bins.map fun b => b.fill x w) = h.bins.map fun b => b.fill y w :=
        congrArg Histo1D.bins heq
      exact (List.map_inj_left.mp hbins b hb).trans hby
    · exact map_eq_self_mem (congrArg Histo1D.bins heq) b hb
    · exact map_eq_self_mem (congrArg Histo1D.bins heq) b hb
  rw [hbx] at hfix
  have hs : b.sumW + w = b.sumW := congrArg Bin.sumW hfix
  exact hw (by linarith)

/-! ## Lemmas on the rounding to doubles -/

theorem roundHalfEven_intCast (n : ℤ) : roundHalfEven (n : ℚ) = n := by
  unfold roundHalfEven
  simp only [Int.floor_intCast, sub_self]
  rw [if_pos (by norm_num)]

theorem roundHalfEven_tie_even (n : ℤ) (hn : n % 2 = 0) :
    roundHalfEven ((n : ℚ) + 1 / 2) = n := by
  have hfloor : ⌊(n : ℚ) + 1 / 2⌋ = n := by
    rw [Int.floor_eq_iff]
    constructor <;> norm_num
  unfold roundHalfEven
  simp only [hfloor, add_sub_cancel_left, lt_self_iff_false, if_false]
  rw [if_pos hn]

theorem log_two_eq (q : ℚ) (e : ℤ) (hq : 0 < q) (hlo : (2 : ℚ) ^ e ≤ q)
    (hhi : q < (2 : ℚ) ^ (e + 1)) : Int.log 2 q = e := by
  have h1 : e ≤ Int.log 2 q :=
    (Int.zpow_le_iff_le_log (by norm_num) hq).mp (by exact_mod_cast hlo)
  have h2 : Int.log 2 q < e + 1 :=
    (Int.lt_zpow_iff_log_lt (by norm_num) hq).mp (by exact_mod_cast hhi)
  omega

/-- Evaluation of `roundDouble` at a value of the binade `[2^b, 2^(b+1))`. -/
theorem roundDouble_eval (q : ℚ) (b : ℤ) (n : ℤ) (hq : 0 < |q|) (hlo : (2 : ℚ) ^ b ≤ |q|)
    (hhi : |q| < (2 : ℚ) ^ (b + 1)) (hr : roundHalfEven (q / 2 ^ (b - 52)) = n) :
    roundDouble q = n * 2 ^ (b - 52) := by
  unfold roundDouble
  rw [if_neg (abs_pos.mp hq)]
  simp only [log_two_eq |q| b hq hlo hhi, hr]

theorem roundDouble_zero : roundDouble 0 = 0 := by
  unfold roundDouble
  rw [if_pos rfl]

/-! ## Lemmas on `analyzeWith` -/

/-- With exact sums `analyzeWith` is `analyze`. -/
theorem analyzeWith_add (fw : Framework) (h : Histo1D) (e : Event) :
    analyzeWith FourMomentum.add fw h e = analyze fw h e := rfl

theorem analyzeWith_of_length_ne (add : FourMomentum → FourMomentum → FourMomentum)
    (fw : Framework) (h : Histo1D) (e : Event) (hl : e.leptons.length ≠ 2) :
    analyzeWith add fw h e = h := by
  unfold analyzeWith
  simp only [length_particlesByPt]
  rw [dif_pos hl]

theorem analyzeWith_of_few_jets (add : FourMomentum → FourMomentum → FourMomentum)
    (fw : Framework) (h : Histo1D) (e : Event) (hj : (selectedJets fw e).length < 2) :
    analyzeWith add fw h e = h := by
  unfold analyzeWith
  unfold selectedJets at hj
  by_cases hlen : (particlesByPt fw e.leptons).length = 2
  · rw [dif_neg (not_not_intro hlen)]
    exact if_pos hj
  · rw [dif_pos hlen]

theorem analyzeWith_of_accept (add : FourMomentum → FourMomentum → FourMomentum)
    (fw : Framework) (h : Histo1D) (e : Event) (l0 l1 : Particle)
    (hl : particlesByPt fw e.leptons = [l0, l1]) (hj : 2 ≤ (selectedJets fw e).length) :
    analyzeWith add fw h e = h.fill (fw.pT (add (add e.met l0.momentum) l1.momentum)) 1 := by
  unfold analyzeWith
  unfold selectedJets at hj
  have e0 : ∀ hp, (particlesByPt fw e.leptons).get ⟨0, hp⟩ = l0 := by
    intro hp
    rw [List.get_of_eq hl]
    rfl
  have e1 : ∀ hp, (particlesByPt fw e.leptons).get ⟨1, hp⟩ = l1 := by
    intro hp
    rw [List.get_of_eq hl]
    rfl
  have hlen : (particlesByPt fw e.leptons).length = 2 := by rw [hl]; rfl
  rw [dif_neg (not_not_intro hlen)]
  simp only []
  rw [if_neg (not_lt.mpr hj), e0, e1]

theorem analyzeWith_cases (add : FourMomentum → FourMomentum → FourMomentum)
    (fw : Framework) (h : Histo1D) (e : Event) :
    ((e.leptons.length = 2 ∧ 2 ≤ (selectedJets fw e).length) ∧
        ∃ l0 l1, particlesByPt fw e.leptons = [l0, l1] ∧
          analyzeWith add fw h e
            = h.fill (fw.pT (add (add e.met l0.momentum) l1.momentum)) 1) ∨
      (¬ (e.leptons.length = 2 ∧ 2 ≤ (selectedJets fw e).length) ∧
        analyzeWith add fw h e = h) := by
  by_cases hl : e.leptons.length = 2
  · by_cases hj : 2 ≤ (selectedJets fw e).length
    · left
      have hlen : (particlesByPt fw e.leptons).length = 2 := by
        rw [length_particlesByPt]; exact hl
      obtain ⟨l0, l1, hsorted⟩ := List.length_eq_two.mp hlen
      exact ⟨⟨hl, hj⟩, l0, l1, hsorted, analyzeWith_of_accept add fw h e l0 l1 hsorted hj⟩
    · right
      exact ⟨fun hc => hj hc.2, analyzeWith_of_few_jets add fw h e (not_le.mp hj)⟩
  · right
    exact ⟨fun hc => hl hc.1, analyzeWith_of_length_ne add fw h e hl⟩

/-- Two leptons already in descending pT order, ties included, keep their
order. -/
theorem particlesByPt_pair_of_le (fw : Framework) (a b : Particle)
    (hle : fw.pT b.momentum ≤ fw.pT a.momentum) : particlesByPt fw [a, b] = [a, b] := by
  unfold particlesByPt
  simp only [List.insertionSort, List.orderedInsert]
  rw [if_pos hle]

/-- Two leptons of different pT are sorted the same way whichever comes first. -/
theorem particlesByPt_swap_of_ne (fw : Framework) (a b : Particle)
    (hne : fw.pT a.momentum ≠ fw.pT b.momentum) :
    particlesByPt fw [a, b] = particlesByPt fw [b, a] := by
  unfold particlesByPt
  simp only [List.insertionSort, List.orderedInsert]
  split_ifs with h1 h2 h2
  · exact absurd (le_antisymm h2 h1) hne
  · rfl
  · rfl
  · exact absurd (le_of_lt (not_le.mp h2)) h1

/-! ## Evaluation of the example data -/

/-- The square root of `exampleFramework` is exact on squares. -/
theorem exampleFramework_sqrt_sq (q : ℚ) (hq : 0 ≤ q) : exampleFramework.sqrt (q ^ 2) = q := by
  show ((Nat.sqrt (q ^ 2).num.natAbs : ℕ) : ℚ) / ((Nat.sqrt (q ^ 2).den : ℕ) : ℚ) = q
  rw [Rat.num_pow, Rat.den_pow, Int.natAbs_pow, pow_two, pow_two, Nat.sqrt_eq, Nat.sqrt_eq]
  have hnum : (q.num.natAbs : ℚ) = (q.num : ℚ) := by
    have h0 : 0 ≤ q.num := Rat.num_nonneg.mpr hq
    rw [Nat.cast_natAbs, abs_of_nonneg h0]
  rw [hnum]
  exact Rat.num_div_den q

theorem particlesByPt_evAccepted :
    particlesByPt exampleFramework evAccepted.leptons = [lepA, lepB] := by
  norm_num [particlesByPt, exampleFramework, Framework.pT, evAccepted, lepA, lepB,
    List.insertionSort, List.orderedInsert]

theorem selectedJets_evAccepted : 2 ≤ (selectedJets exampleFramework evAccepted).length := by
  rw [length_selectedJets]
  norm_num [exampleFramework, Framework.pT, evAccepted, lepA, lepB, jetA, jetB, qualifies,
    List.countP_cons, abs_of_nonneg, abs_of_neg]

theorem qualifyingJets_evOverlap : (qualifyingJets exampleFramework evOverlap).length < 2 := by
  rw [length_qualifyingJets]
  norm_num [exampleFramework, Framework.pT, evOverlap, lepA, lepB, jetA, jetNear, jetSoft,
    qualifies, List.countP_cons, abs_of_nonneg, abs_of_neg]

theorem deltaR_jetNear_lepA :
    exampleFramework.deltaR jetNear.momentum lepA.momentum < 0.4 := by
  norm_num [exampleFramework, jetNear, lepA, abs_of_nonneg, abs_of_neg]

theorem norm_exampleRun : norm exampleFramework exampleRun = 25000 := by
  norm_num [norm, exampleFramework, exampleRun]

/-- Scenario 1 of the spec: leptons of pT 50 and 30, jets of pT 40 and 35 away
from the leptons, MET of pT 20: the event is accepted and the fill value is
the pT of the vector sum, 40. -/
theorem analyze_evAccepted : analyze exampleFramework init evAccepted = init.fill 40 1 := by
  rw [analyze_of_accept exampleFramework init evAccepted lepA lepB particlesByPt_evAccepted
    selectedJets_evAccepted, pT_add_add]
  norm_num [exampleFramework, evAccepted, metA, lepA, lepB]

/-- Scenario 5 of the spec: `sumOfWeights = 0`, `crossSection = 100`. -/
theorem norm_scenario_five : norm exampleFramework ⟨100, 0⟩ = 1 := by
  norm_num [norm]

/-- In doubles `50 + tiePt` is 70: the sum lies halfway between two doubles and
goes to the even one. -/
theorem roundDouble_met_add_tie : roundDouble (50 + tiePt) = 70 := by
  unfold tiePt
  rw [roundDouble_eval (50 + (20 + 1 / 2 ^ 47)) 6 (70 * 2 ^ 46) (by norm_num)
    (by norm_num [abs_of_pos]) (by norm_num [abs_of_pos])
    (by
      have hq : ((50 : ℚ) + (20 + 1 / 2 ^ 47)) / 2 ^ ((6 : ℤ) - 52)
          = ((70 * 2 ^ 46 : ℤ) : ℚ) + 1 / 2 := by norm_num
      rw [hq]
      exact roundHalfEven_tie_even _ (by norm_num))]
  norm_num

/-- In doubles `70 - tiePt` is exact. -/
theorem roundDouble_seventy_sub_tie : roundDouble (70 + -tiePt) = 50 - 1 / 2 ^ 47 := by
  unfold tiePt
  rw [roundDouble_eval (70 + -(20 + 1 / 2 ^ 47)) 5 (50 * 2 ^ 47 - 1) (by norm_num)
    (by norm_num [abs_of_pos]) (by norm_num [abs_of_pos])
    (by
      have hq : ((70 : ℚ) + -(20 + 1 / 2 ^ 47)) / 2 ^ ((5 : ℤ) - 52)
          = ((50 * 2 ^ 47 - 1 : ℤ) : ℚ) := by norm_num
      rw [hq]
      exact roundHalfEven_intCast _)]
  norm_num

/-- In doubles `50 - tiePt` is exact. -/
theorem roundDouble_met_sub_tie : roundDouble (50 + -tiePt) = 30 - 1 / 2 ^ 47 := by
  unfold tiePt
  rw [roundDouble_eval (50 + -(20 + 1 / 2 ^ 47)) 4 (30 * 2 ^ 48 - 2) (by norm_num)
    (by norm_num [abs_of_pos]) (by norm_num [abs_of_pos])
    (by
      have hq : ((50 : ℚ) + -(20 + 1 / 2 ^ 47)) / 2 ^ ((4 : ℤ) - 52)
          = ((30 * 2 ^ 48 - 2 : ℤ) : ℚ) := by norm_num
      rw [hq]
      exact roundHalfEven_intCast _)]
  norm_num

/-- In doubles `(30 - 2^-47) + tiePt` is exactly 50. -/
theorem roundDouble_thirty_add_tie : roundDouble (30 - 1 / 2 ^ 47 + tiePt) = 50 := by
  unfold tiePt
  rw [roundDouble_eval (30 - 1 / 2 ^ 47 + (20 + 1 / 2 ^ 47)) 5 (50 * 2 ^ 47) (by norm_num)
    (by norm_num [abs_of_pos]) (by norm_num [abs_of_pos])
    (by
      have hq : ((30 : ℚ) - 1 / 2 ^ 47 + (20 + 1 / 2 ^ 47)) / 2 ^ ((5 : ℤ) - 52)
          = ((50 * 2 ^ 47 : ℤ) : ℚ) := by norm_num
      rw [hq]
      exact roundHalfEven_intCast _)]
  norm_num

/-- The candidate of `evTie` in doubles, `(met + lepTieA) + lepTieB`, has
`px = 50 - 2^-47` and `py = 0`. -/
theorem candidate_evTie :
    (FourMomentum.addDouble (FourMomentum.addDouble metTie lepTieA.momentum)
        lepTieB.momentum).px = 50 - 1 / 2 ^ 47 ∧
      (FourMomentum.addDouble (FourMomentum.addDouble metTie lepTieA.momentum)
        lepTieB.momentum).py = 0 := by
  constructor
  · show roundDouble (roundDouble (50 + tiePt) + -tiePt) = 50 - 1 / 2 ^ 47
    rw [roundDouble_met_add_tie, roundDouble_seventy_sub_tie]
  · show roundDouble (roundDouble (0 + 0) + 0) = 0
    simp only [add_zero, roundDouble_zero]

/-- The candidate of `evTieSwapped` in doubles, `(met + lepTieB) + lepTieA`,
has `px = 50` and `py = 0`. -/
theorem candidate_evTieSwapped :
    (FourMomentum.addDouble (FourMomentum.addDouble metTie lepTieB.momentum)
        lepTieA.momentum).px = 50 ∧
      (FourMomentum.addDouble (FourMomentum.addDouble metTie lepTieB.momentum)
        lepTieA.momentum).py = 0 := by
  constructor
  · show roundDouble (roundDouble (50 + -tiePt) + tiePt) = 50
    rw [roundDouble_met_sub_tie, roundDouble_thirty_add_tie]
  · show roundDouble (roundDouble (0 + 0) + 0) = 0
    simp only [add_zero, roundDouble_zero]

theorem pT_lepTie :
    exampleFramework.pT lepTieB.momentum = exampleFramework.pT lepTieA.momentum := by
  unfold Framework.pT
  congr 1
  simp [lepTieA, lepTieB]

theorem selectedJets_evTie : 2 ≤ (selectedJets exampleFramework evTie).length := by
  rw [length_selectedJets]
  norm_num [exampleFramework, Framework.pT, evTie, lepTieA, lepTieB, tiePt, jetA, jetB,
    qualifies, List.countP_cons, abs_of_nonneg, abs_of_neg]

theorem selectedJets_evTieSwapped : 2 ≤ (selectedJets exampleFramework evTieSwapped).length := by
  rw [selectedJets_congr exampleFramework evTieSwapped evTie
    (List.Perm.swap lepTieA lepTieB []) rfl]
  exact selectedJets_evTie

/-- In doubles `analyze` fills `evTie` at `50 - 2^-47`. -/
theorem analyzeWith_evTie :
    analyzeWith FourMomentum.addDouble exampleFramework init evTie
      = init.fill (50 - 1 / 2 ^ 47) 1 := by
  rw [analyzeWith_of_accept FourMomentum.addDouble exampleFramework init evTie lepTieA lepTieB
    (particlesByPt_pair_of_le exampleFramework lepTieA lepTieB (le_of_eq pT_lepTie))
    selectedJets_evTie]
  have hpt : exampleFramework.pT (FourMomentum.addDouble
      (FourMomentum.addDouble evTie.met lepTieA.momentum) lepTieB.momentum)
        = 50 - 1 / 2 ^ 47 := by
    unfold Framework.pT
    have hxy := candidate_evTie
    rw [show evTie.met = metTie from rfl, hxy.1, hxy.2]
    rw [show ((50 : ℚ) - 1 / 2 ^ 47) ^ 2 + 0 ^ 2 = (50 - 1 / 2 ^ 47) ^ 2 by norm_num]
    exact exampleFramework_sqrt_sq _ (by norm_num)
  rw [hpt]

/-- In doubles `analyze` fills `evTieSwapped` at 50. -/
theorem analyzeWith_evTieSwapped :
    analyzeWith FourMomentum.addDouble exampleFramework init evTieSwapped = init.fill 50 1 := by
  rw [analyzeWith_of_accept FourMomentum.addDouble exampleFramework init evTieSwapped lepTieB
    lepTieA (particlesByPt_pair_of_le exampleFramework lepTieB lepTieA (le_of_eq pT_lepTie.symm))
    selectedJets_evTieSwapped]
  have hpt : exampleFramework.pT (FourMomentum.addDouble
      (FourMomentum.addDouble evTieSwapped.met lepTieB.momentum) lepTieA.momentum) = 50 := by
    unfold Framework.pT
    have hxy := candidate_evTieSwapped
    rw [show evTieSwapped.met = metTie from rfl, hxy.1, hxy.2]
    rw [show ((50 : ℚ)) ^ 2 + 0 ^ 2 = 50 ^ 2 by norm_num]
    exact exampleFramework_sqrt_sq _ (by norm_num)
  rw [hpt]

theorem pT_lepB_ne_lepA :
    exampleFramework.pT lepB.momentum ≠ exampleFramework.pT lepA.momentum := by
  norm_num [exampleFramework, Framework.pT, lepA, lepB]

/-- The first bin of the booked histogram is `[0, 50)`. -/
theorem first_bin_init : (⟨0, 50, 0⟩ : Bin) ∈ init.bins := by
  norm_num [init, book, List.range, List.range.loop]

/-! ## The properties -/

/-- C1: an event whose dressed-lepton list has a length other than 2 makes no
fill, whatever its jets and missing momentum: the histogram after `analyze` is
the histogram before it. Three or more leptons are rejected like zero or one;
the two leading ones are not taken. -/
theorem analyze_unchanged_of_lepton_count_ne_two (fw : Framework) (h : Histo1D)
    (e : Event) (hl : e.leptons.length ≠ 2) : analyze fw h e = h :=
  analyze_of_length_ne fw h e hl

theorem analyze_unchanged_of_lepton_count_ne_two_witness :
    (evThreeLeptons.leptons.length ≠ 2 ∧
        analyze exampleFramework init evThreeLeptons = init) ∧
      (evOneLepton.leptons.length ≠ 2 ∧
        analyze exampleFramework init evOneLepton = init) :=
  ⟨⟨by decide,
      analyze_unchanged_of_lepton_count_ne_two exampleFramework init evThreeLeptons
        (by decide)⟩,
    ⟨by decide,
      analyze_unchanged_of_lepton_count_ne_two exampleFramework init evOneLepton
        (by decide)⟩⟩

/-- C2: an event with exactly 2 leptons in which fewer than 2 jets remain,
after keeping only the jets with pT above 30 GeV and then discarding the jets
with deltaR below 0.4 to any of the two leptons, makes no fill: the histogram
is unchanged. -/
theorem analyze_unchanged_of_few_qualifying_jets (fw : Framework) (h : Histo1D)
    (e : Event) (_hl : e.leptons.length = 2) (hj : (qualifyingJets fw e).length < 2) :
    analyze fw h e = h :=
  analyze_of_few_jets fw h e (by rw [(selectedJets_perm fw e).length_eq]; exact hj)

theorem analyze_unchanged_of_few_qualifying_jets_witness :
    evOverlap.leptons.length = 2 ∧ (qualifyingJets exampleFramework evOverlap).length < 2 ∧
      analyze exampleFramework init evOverlap = init :=
  ⟨by decide, qualifyingJets_evOverlap,
    analyze_unchanged_of_few_qualifying_jets exampleFramework init evOverlap
      (by decide) qualifyingJets_evOverlap⟩

/-- C3: for an accepted event (the sorted lepton list is `[l0, l1]` and at
least 2 jets survive both jet cuts), `analyze` is the fill of the histogram
with the transverse-momentum magnitude of `met + l0 + l1`, that is with
`sqrt(px^2 + py^2)` of the component-wise sum. -/
theorem analyze_fill_value (fw : Framework) (h : Histo1D) (e : Event) (l0 l1 : Particle)
    (hl : particlesByPt fw e.leptons = [l0, l1]) (hj : 2 ≤ (selectedJets fw e).length) :
    analyze fw h e
      = h.fill (fw.sqrt ((e.met.px + l0.momentum.px + l1.momentum.px) ^ 2
          + (e.met.py + l0.momentum.py + l1.momentum.py) ^ 2)) 1 := by
  rw [analyze_of_accept fw h e l0 l1 hl hj, pT_add_add]

theorem analyze_fill_value_witness :
    particlesByPt exampleFramework evAccepted.leptons = [lepA, lepB] ∧
      2 ≤ (selectedJets exampleFramework evAccepted).length ∧
      analyze exampleFramework init evAccepted
        = init.fill (exampleFramework.sqrt
            ((evAccepted.met.px + lepA.momentum.px + lepB.momentum.px) ^ 2
              + (evAccepted.met.py + lepA.momentum.py + lepB.momentum.py) ^ 2)) 1 :=
  ⟨particlesByPt_evAccepted, selectedJets_evAccepted,
    analyze_fill_value exampleFramework init evAccepted lepA lepB
      particlesByPt_evAccepted selectedJets_evAccepted⟩

/-- C4: for a nonzero `sumOfWeights` and every cross-section, `finalize`
multiplies every bin by exactly `cs / sumOfWeights`, where `cs` is the
cross-section expressed in femtobarns, `crossSection() / femtobarn`; so the
integral after `finalize` is the raw integral times `cs / sumOfWeights`. -/
theorem finalize_scales_by_cs_over_sw (fw : Framework) (run : Run) (h : Histo1D) (cs : ℚ)
    (hsw : run.sumOfWeights ≠ 0) (hcs : cs = run.crossSection / fw.femtobarn) :
    (finalize fw run h).contents = (h.contents.map fun c => c * (cs / run.sumOfWeights)) ∧
      (finalize fw run h).integral = h.integral * (cs / run.sumOfWeights) := by
  unfold finalize
  rw [norm_of_ne fw run hsw, ← hcs]
  exact ⟨contents_scale h _, integral_scale h _⟩

theorem finalize_scales_by_cs_over_sw_witness :
    exampleRun.sumOfWeights ≠ 0 ∧
      (100000 : ℚ) = exampleRun.crossSection / exampleFramework.femtobarn ∧
      (finalize exampleFramework exampleRun oneBinHisto).contents
        = (oneBinHisto.contents.map fun c => c * (100000 / exampleRun.sumOfWeights)) ∧
      (finalize exampleFramework exampleRun oneBinHisto).integral
        = oneBinHisto.integral * (100000 / exampleRun.sumOfWeights) :=
  ⟨by norm_num [exampleRun], by norm_num [exampleRun, exampleFramework],
    finalize_scales_by_cs_over_sw exampleFramework exampleRun oneBinHisto 100000
      (by norm_num [exampleRun]) (by norm_num [exampleRun, exampleFramework])⟩

/-- C5: when `sumOfWeights` is 0, for every cross-section (and every value of
the unit constant) the normalisation factor is exactly 1 and `finalize` leaves
the histogram, hence every bin, with its accumulated content. -/
theorem finalize_zero_sumOfWeights (fw : Framework) (crossSection : ℚ) (h : Histo1D) :
    norm fw ⟨crossSection, 0⟩ = 1 ∧ finalize fw ⟨crossSection, 0⟩ h = h ∧
      (finalize fw ⟨crossSection, 0⟩ h).contents = h.contents := by
  have hn : norm fw ⟨crossSection, 0⟩ = 1 := norm_of_eq fw _ rfl
  have hf : finalize fw ⟨crossSection, 0⟩ h = h := by
    unfold finalize
    rw [hn, scale_one]
  exact ⟨hn, hf, by rw [hf]⟩

/-- C6: for an event with exactly 2 leptons, a jet whose deltaR to at least one
of the leptons is below 0.4 is not among the jets counted by the `njets >= 2`
cut, whatever its pT; equivalently every counted jet has deltaR of at least
0.4 to both leptons. -/
theorem overlapping_jet_not_counted (fw : Framework) (e : Event)
    (_h2 : e.leptons.length = 2) :
    (∀ j : Jet, (∃ l ∈ e.leptons, fw.deltaR j.momentum l.momentum < 0.4) →
        j ∉ selectedJets fw e) ∧
      (∀ j ∈ selectedJets fw e, ∀ l ∈ e.leptons, 0.4 ≤ fw.deltaR j.momentum l.momentum) := by
  constructor
  · rintro j ⟨l, hl, hlt⟩ hmem
    exact absurd hlt (not_lt.mpr (((mem_selectedJets fw e j).mp hmem).2.2 l hl))
  · intro j hmem l hl
    exact ((mem_selectedJets fw e j).mp hmem).2.2 l hl

theorem overlapping_jet_not_counted_witness :
    evOverlap.leptons.length = 2 ∧ jetNear ∈ evOverlap.jets ∧
      exampleFramework.deltaR jetNear.momentum lepA.momentum < 0.4 ∧
      jetNear ∉ selectedJets exampleFramework evOverlap :=
  ⟨by decide, by simp [evOverlap], deltaR_jetNear_lepA,
    (overlapping_jet_not_counted exampleFramework evOverlap (by decide)).1 jetNear
      ⟨lepA, by simp [evOverlap], deltaR_jetNear_lepA⟩⟩

/-- C7: `analyze` accepts an event, making exactly one fill of the histogram,
if and only if the lepton list has exactly 2 elements and at least 2 of the
input jets have pT strictly above 30 GeV and deltaR of at least 0.4 to each of
the leptons; otherwise the histogram is returned as it was. A jet with pT
exactly 30 GeV is not counted, and an input jet above the pT cut with deltaR
exactly 0.4 to the leptons is counted. -/
theorem analyze_fills_iff (fw : Framework) (h : Histo1D) (e : Event) :
    ((∃ x, analyze fw h e = h.fill x 1) ↔
        (e.leptons.length = 2 ∧ 2 ≤ e.jets.countP (qualifies fw e.leptons))) ∧
      (analyze fw h e = h ↔
        ¬ (e.leptons.length = 2 ∧ 2 ≤ e.jets.countP (qualifies fw e.leptons))) ∧
      (∀ j : Jet, fw.pT j.momentum = 30 * fw.GeV → j ∉ selectedJets fw e) ∧
      (∀ j ∈ e.jets, 30 * fw.GeV < fw.pT j.momentum →
        (∀ l ∈ e.leptons, fw.deltaR j.momentum l.momentum = 0.4) → j ∈ selectedJets fw e) := by
  rw [← length_selectedJets]
  refine ⟨⟨?_, ?_⟩, ⟨?_, ?_⟩, ?_, ?_⟩
  · rintro ⟨x, hx⟩
    rcases analyze_cases fw h e with ⟨hacc, _⟩ | ⟨_, hrej⟩
    · exact hacc
    · exact absurd (hx.symm.trans hrej) (fill_one_ne h x)
  · intro hacc
    rcases analyze_cases fw h e with ⟨_, l0, l1, _, hfill⟩ | ⟨hnot, _⟩
    · exact ⟨_, hfill⟩
    · exact absurd hacc hnot
  · intro hsame
    rcases analyze_cases fw h e with ⟨_, l0, l1, _, hfill⟩ | ⟨hnot, _⟩
    · exact absurd (hfill.symm.trans hsame) (fill_one_ne h _)
    · exact hnot
  · intro hnot
    rcases analyze_cases fw h e with ⟨hacc, _⟩ | ⟨_, hrej⟩
    · exact absurd hacc hnot
    · exact hrej
  · intro j hpt hmem
    have hlt := ((mem_selectedJets fw e j).mp hmem).2.1
    rw [hpt] at hlt
    exact lt_irrefl _ hlt
  · intro j hj hpt hdr
    exact (mem_selectedJets fw e j).mpr ⟨hj, hpt, fun l hl => le_of_eq (hdr l hl).symm⟩

/-- C8, counterexample: the claim fails in double arithmetic. The event `evTie`
is accepted; its two leptons have the same pT, so the sort keeps the order they
come in, and the candidate sums `(met + a) + b` and `(met + b) + a` round to
different doubles, `50 - 2^-47` and `50`. Exchanging the two leptons changes
the candidate and moves the fill from the bin `[0, 50)` to the bin
`[50, 100)`. -/
theorem analyze_lepton_swap_counterexample :
    evTie.leptons = [lepTieA, lepTieB] ∧ evTieSwapped.leptons = [lepTieB, lepTieA] ∧
      evTie.jets = evTieSwapped.jets ∧ evTie.met = evTieSwapped.met ∧
      2 ≤ (selectedJets exampleFramework evTie).length ∧
      FourMomentum.addDouble (FourMomentum.addDouble metTie lepTieA.momentum) lepTieB.momentum
        ≠ FourMomentum.addDouble (FourMomentum.addDouble metTie lepTieB.momentum)
            lepTieA.momentum ∧
      analyzeWith FourMomentum.addDouble exampleFramework init evTie
        ≠ analyzeWith FourMomentum.addDouble exampleFramework init evTieSwapped := by
  refine ⟨rfl, rfl, rfl, rfl, selectedJets_evTie, ?_, ?_⟩
  · intro heq
    have hpx := congrArg FourMomentum.px heq
    rw [candidate_evTie.1, candidate_evTieSwapped.1] at hpx
    norm_num at hpx
  · rw [analyzeWith_evTie, analyzeWith_evTieSwapped]
    exact fill_ne_fill init _ _ 1 ⟨0, 50, 0⟩ first_bin_init
      (by norm_num [Bin.contains]) (by norm_num [Bin.contains]) one_ne_zero

/-- C8, amended: exchanging the two leptons of the lepton list leaves the
candidate four-momentum and the fill unchanged when the two leptons differ in
pT (the sorted list is then the same) or when the two orders of summation give
the same sum, `(met + a) + b = (met + b) + a`, as exact sums do. This holds for
every addition `add` of four-momenta, the rounded sums of doubles included. -/
theorem analyzeWith_lepton_swap (add : FourMomentum → FourMomentum → FourMomentum)
    (fw : Framework) (h : Histo1D) (a b : Particle) (jets : List Jet) (met : FourMomentum)
    (hord : fw.pT a.momentum ≠ fw.pT b.momentum ∨
      add (add met a.momentum) b.momentum = add (add met b.momentum) a.momentum) :
    analyzeWith add fw h ⟨[a, b], jets, met⟩ = analyzeWith add fw h ⟨[b, a], jets, met⟩ ∧
      (∀ l0 l1 m0 m1 : Particle, particlesByPt fw [a, b] = [l0, l1] →
        particlesByPt fw [b, a] = [m0, m1] →
        add (add met l0.momentum) l1.momentum = add (add met m0.momentum) m1.momentum) := by
  have hsum : ∀ l0 l1 m0 m1 : Particle, particlesByPt fw [a, b] = [l0, l1] →
      particlesByPt fw [b, a] = [m0, m1] →
      add (add met l0.momentum) l1.momentum = add (add met m0.momentum) m1.momentum := by
    intro l0 l1 m0 m1 hl hm
    rcases hord with hne | hcomm
    · have hsame : [l0, l1] = [m0, m1] :=
        (hl.symm.trans (particlesByPt_swap_of_ne fw a b hne)).trans hm
      obtain ⟨h0, h1⟩ := List.cons_eq_cons.mp hsame
      rw [h0, (List.cons_eq_cons.mp h1).1]
    · have hl2 : [l0, l1] = [a, b] ∨ [l0, l1] = [b, a] := by
        rcases particlesByPt_pair fw a b with hp | hp
        · exact Or.inl (hl.symm.trans hp)
        · exact Or.inr (hl.symm.trans hp)
      have hm2 : [m0, m1] = [b, a] ∨ [m0, m1] = [a, b] := by
        rcases particlesByPt_pair fw b a with hp | hp
        · exact Or.inl (hm.symm.trans hp)
        · exact Or.inr (hm.symm.trans hp)
      rcases hl2 with hl3 | hl3 <;> rcases hm2 with hm3 | hm3 <;>
        obtain ⟨h0, h1⟩ := List.cons_eq_cons.mp hl3 <;>
        obtain ⟨k0, k1⟩ := List.cons_eq_cons.mp hm3 <;>
        rw [h0, (List.cons_eq_cons.mp h1).1, k0, (List.cons_eq_cons.mp k1).1]
      · exact hcomm
      · exact hcomm.symm
  have hjets : selectedJets fw ⟨[a, b], jets, met⟩ = selectedJets fw ⟨[b, a], jets, met⟩ :=
    selectedJets_congr fw _ _ (List.Perm.swap b a []) rfl
  refine ⟨?_, hsum⟩
  rcases analyzeWith_cases add fw h ⟨[a, b], jets, met⟩ with
    ⟨hacc, l0, l1, hl, hfill⟩ | ⟨hnot, hrej⟩
  · rcases analyzeWith_cases add fw h ⟨[b, a], jets, met⟩ with
      ⟨_, m0, m1, hm, hfillSwap⟩ | ⟨hnotSwap, _⟩
    · rw [hfill, hfillSwap]
      show h.fill (fw.pT (add (add met l0.momentum) l1.momentum)) 1
        = h.fill (fw.pT (add (add met m0.momentum) m1.momentum)) 1
      rw [hsum l0 l1 m0 m1 hl hm]
    · exact absurd ⟨rfl, hjets ▸ hacc.2⟩ hnotSwap
  · rcases analyzeWith_cases add fw h ⟨[b, a], jets, met⟩ with ⟨haccSwap, _⟩ | ⟨_, hrejSwap⟩
    · exact absurd ⟨rfl, hjets.symm ▸ haccSwap.2⟩ hnot
    · rw [hrej, hrejSwap]

theorem analyzeWith_lepton_swap_witness :
    (exampleFramework.pT lepB.momentum ≠ exampleFramework.pT lepA.momentum ∨
        FourMomentum.addDouble (FourMomentum.addDouble metA lepB.momentum) lepA.momentum
          = FourMomentum.addDouble (FourMomentum.addDouble metA lepA.momentum)
              lepB.momentum) ∧
      (analyzeWith FourMomentum.addDouble exampleFramework init ⟨[lepB, lepA], [jetB, jetA], metA⟩
          = analyzeWith FourMomentum.addDouble exampleFramework init
              ⟨[lepA, lepB], [jetB, jetA], metA⟩ ∧
        (∀ l0 l1 m0 m1 : Particle, particlesByPt exampleFramework [lepB, lepA] = [l0, l1] →
          particlesByPt exampleFramework [lepA, lepB] = [m0, m1] →
          FourMomentum.addDouble (FourMomentum.addDouble metA l0.momentum) l1.momentum
            = FourMomentum.addDouble (FourMomentum.addDouble metA m0.momentum) m1.momentum)) :=
  ⟨Or.inl pT_lepB_ne_lepA,
    analyzeWith_lepton_swap FourMomentum.addDouble exampleFramework init lepB lepA [jetB, jetA]
      metA (Or.inl pT_lepB_ne_lepA)⟩

/-- C9: `finalize` is not idempotent. With the run scalars unchanged, two
calls scale every bin by the square of the normalisation factor; and when some
bin is nonzero and the factor is neither 0 nor 1, the histogram after two
calls differs from the histogram after one call. -/
theorem finalize_twice_double_scales (fw : Framework) (run : Run) (h : Histo1D) (b : Bin)
    (hb : b ∈ h.bins) (hne : b.sumW ≠ 0) (h0 : norm fw run ≠ 0) (h1 : norm fw run ≠ 1) :
    (finalize fw run (finalize fw run h)).contents
        = (h.contents.map fun c => c * norm fw run ^ 2) ∧
      finalize fw run (finalize fw run h) ≠ finalize fw run h := by
  unfold finalize
  constructor
  · rw [scale_scale, contents_scale, pow_two]
  · intro heq
    have hc := congrArg Histo1D.contents heq
    rw [scale_scale, contents_scale, contents_scale] at hc
    have hmem : b.sumW ∈ h.contents := List.mem_map_of_mem Bin.sumW hb
    have hb2 := List.map_inj_left.mp hc b.sumW hmem
    have hmul : b.sumW * norm fw run * (norm fw run - 1) = 0 := by
      have hb3 : b.sumW * (norm fw run * norm fw run) = b.sumW * norm fw run := hb2
      linear_combination hb3
    rcases mul_eq_zero.mp hmul with hz | hz
    · rcases mul_eq_zero.mp hz with hz | hz
      · exact hne hz
      · exact h0 hz
    · exact h1 (sub_eq_zero.mp hz)

theorem finalize_twice_double_scales_witness :
    (⟨0, 500, 3⟩ : Bin) ∈ oneBinHisto.bins ∧ (⟨0, 500, 3⟩ : Bin).sumW ≠ 0 ∧
      norm exampleFramework exampleRun ≠ 0 ∧ norm exampleFramework exampleRun ≠ 1 ∧
      (finalize exampleFramework exampleRun (finalize exampleFramework exampleRun
          oneBinHisto)).contents
        = (oneBinHisto.contents.map fun c => c * norm exampleFramework exampleRun ^ 2) ∧
      finalize exampleFramework exampleRun (finalize exampleFramework exampleRun oneBinHisto)
        ≠ finalize exampleFramework exampleRun oneBinHisto :=
  ⟨by simp [oneBinHisto], by norm_num, by rw [norm_exampleRun]; norm_num,
    by rw [norm_exampleRun]; norm_num,
    finalize_twice_double_scales exampleFramework exampleRun oneBinHisto ⟨0, 500, 3⟩
      (by simp [oneBinHisto]) (by norm_num) (by rw [norm_exampleRun]; norm_num)
      (by rw [norm_exampleRun]; norm_num)⟩

/-- C10: the accept/reject decision of `analyze` does not depend on the missing
momentum: two events with the same lepton list and the same jet list are
either both rejected (histogram unchanged) or both accepted (one fill each). -/
theorem analyze_decision_independent_of_met (fw : Framework) (h : Histo1D) (e₁ e₂ : Event)
    (hl : e₁.leptons = e₂.leptons) (hj : e₁.jets = e₂.jets) :
    (analyze fw h e₁ = h ↔ analyze fw h e₂ = h) ∧
      ((∃ x, analyze fw h e₁ = h.fill x 1) ↔ (∃ x, analyze fw h e₂ = h.fill x 1)) := by
  have hsel : selectedJets fw e₁ = selectedJets fw e₂ :=
    selectedJets_congr fw e₁ e₂ (hl ▸ List.Perm.refl _) hj
  rcases analyze_cases fw h e₁ with ⟨hacc, l0, l1, _, hfill⟩ | ⟨hnot, hrej⟩
  · rcases analyze_cases fw h e₂ with ⟨_, m0, m1, _, hfillSwap⟩ | ⟨hnotSwap, _⟩
    · rw [hfill, hfillSwap]
      exact ⟨⟨fun hc => absurd hc (fill_one_ne h _), fun hc => absurd hc (fill_one_ne h _)⟩,
        ⟨fun _ => ⟨_, rfl⟩, fun _ => ⟨_, rfl⟩⟩⟩
    · exact absurd ⟨hl ▸ hacc.1, hsel ▸ hacc.2⟩ hnotSwap
  · rcases analyze_cases fw h e₂ with ⟨haccSwap, _⟩ | ⟨_, hrejSwap⟩
    · exact absurd ⟨hl.symm ▸ haccSwap.1, hsel.symm ▸ haccSwap.2⟩ hnot
    · rw [hrej, hrejSwap]
      exact ⟨Iff.rfl, Iff.rfl⟩

theorem analyze_decision_independent_of_met_witness :
    evAccepted.leptons = evAcceptedZeroMet.leptons ∧
      evAccepted.jets = evAcceptedZeroMet.jets ∧
      ((analyze exampleFramework init evAccepted = init ↔
          analyze exampleFramework init evAcceptedZeroMet = init) ∧
        ((∃ x, analyze exampleFramework init evAccepted = init.fill x 1) ↔
          (∃ x, analyze exampleFramework init evAcceptedZeroMet
            = init.fill x 1))) :=
  ⟨rfl, rfl,
    analyze_decision_independent_of_met exampleFramework init evAccepted
      evAcceptedZeroMet rfl rfl⟩

end HiggsVBF
